import Mathlib

/-!
Shallow embedding of the `deepviz` model-introspection utility.

Source files embedded:
- `src/backend/src/utils/model_parser.py` (class `ModelParser`)
- `src/backend/src/decorator/model_parse_decorator.py` (`residual_block`)

A torch module instance is modelled as a finite tree `PModule`: its class
name, its direct (non-recursive) named parameters with their shapes, its
reflective attribute table (name to value, as probed by `hasattr` and
`getattr`), and its named children in declared order.  The parser output
(an `OrderedDict` in Python) is modelled as the tree `LayerNode`.
-/

/-- Values a plain Python attribute can hold in this development; enough for the
booleans, strings and numbers the code manipulates. -/
inductive AttrValue where
  | bool : Bool → AttrValue
  | str : String → AttrValue
  | int : Int → AttrValue
deriving DecidableEq, Repr

/-- Python truthiness of an `AttrValue` (`bool(v)`): a boolean is itself, a
string is truthy iff nonempty, an integer iff nonzero. -/
def AttrValue.truthy : AttrValue → Bool
  | .bool b => b
  | .str s => s ≠ ""
  | .int i => i ≠ 0

/-- A torch `nn.Module` instance, as the parser observes it: class name,
`named_parameters(recurse=False)` as name/shape pairs, the reflective
attribute table, and `named_children()` in declared order. -/
inductive PModule where
  | mk : String → List (String × List Nat) → List (String × AttrValue) →
         List (String × PModule) → PModule

def PModule.className : PModule → String
  | .mk c _ _ _ => c

def PModule.params : PModule → List (String × List Nat)
  | .mk _ p _ _ => p

def PModule.attrs : PModule → List (String × AttrValue)
  | .mk _ _ a _ => a

def PModule.children : PModule → List (String × PModule)
  | .mk _ _ _ c => c

/-- Lookup in an attribute table: `getattr(obj, n)` when present, `none` when
`hasattr(obj, n)` is false.  Attribute tables are dictionaries, so the first
binding for a name is the binding. -/
def lookupVal (ats : List (String × AttrValue)) (n : String) : Option AttrValue :=
  (ats.find? (fun p => p.1 == n)).map Prod.snd

/-- Reflective `getattr` on a module, `none` when the attribute is absent. -/
def getattrOpt (m : PModule) (n : String) : Option AttrValue :=
  lookupVal m.attrs n

/-- Reflective `hasattr` on a module. -/
def hasattrB (m : PModule) (n : String) : Bool :=
  (getattrOpt m n).isSome

/-- Embeds the predicate `hasattr(layer, 'residual') and layer.residual` from
`model_parser.py` line 71: the marker is present and truthy. -/
def isResidual (ats : List (String × AttrValue)) : Bool :=
  match lookupVal ats "residual" with
  | some v => v.truthy
  | none => false

/-- Embeds the Python expression `parent_input or "block_input"`
(`model_parser.py` line 75): `parent_input` is `None` or a string, and `or`
returns the sentinel when the left side is falsy (absent or empty). -/
def pyOrName (parentInput : Option String) (sentinel : String) : String :=
  match parentInput with
  | none => sentinel
  | some s => if s = "" then sentinel else s

/-- Embeds `ModelParser._get_layer_attributes`: walk the allow-list in order,
keep each name present on the instance mapped to its current value. -/
def getLayerAttributes (keep : List String) (ats : List (String × AttrValue)) :
    List (String × AttrValue) :=
  keep.filterMap (fun a => (lookupVal ats a).map (fun v => (a, v)))

/-- One parsed node of the output tree (an `OrderedDict` in Python): layer
name, layer type, parameters, kept attributes, the residual flag, the
`residual_connection` value (input source, fusion type, adjust layer; `none`
for a plain module), and the children list. -/
inductive LayerNode where
  | mk : String → String → List (String × List Nat) → List (String × AttrValue) →
         Bool → Option (String × AttrValue × Option LayerNode) →
         List LayerNode → LayerNode

def LayerNode.layer_name : LayerNode → String
  | .mk n _ _ _ _ _ _ => n

def LayerNode.layer_type : LayerNode → String
  | .mk _ t _ _ _ _ _ => t

def LayerNode.parameters : LayerNode → List (String × List Nat)
  | .mk _ _ p _ _ _ _ => p

def LayerNode.attributes : LayerNode → List (String × AttrValue)
  | .mk _ _ _ a _ _ _ => a

def LayerNode.is_residual_block : LayerNode → Bool
  | .mk _ _ _ _ b _ _ => b

def LayerNode.residual_connection : LayerNode → Option (String × AttrValue × Option LayerNode)
  | .mk _ _ _ _ _ r _ => r

def LayerNode.children : LayerNode → List LayerNode
  | .mk _ _ _ _ _ _ c => c

/-- Accessor names for the `residual_connection` triple. -/
def RCinput_source (r : String × AttrValue × Option LayerNode) : String := r.1

def RCfusion_type (r : String × AttrValue × Option LayerNode) : AttrValue := r.2.1

def RCadjust_layer (r : String × AttrValue × Option LayerNode) : Option LayerNode := r.2.2

mutual

/-- Embeds `ModelParser._parse_layers` (`model_parser.py` lines 62-99).  The
node head is `_get_layer_info` (lines 25-33): name, class name, direct
parameter shapes, filtered attributes.  If the residual marker is present and
truthy, the residual branch fills `residual_connection` (input source via
`parent_input or "block_input"`, fusion type via
`layer.fusion_type if hasattr else "add"`, adjust layer from the child loop)
and `children` with the main branch; otherwise every child is parsed with
`parent_input = name` and `residual_connection` is `None`. -/
def parseLayers (keep : List String) : PModule → String → Option String → LayerNode
  | .mk cls ps ats cs, name, parentInput =>
    if isResidual ats then
      let r := parseChildrenResidual keep name parentInput cs
      LayerNode.mk name cls ps (getLayerAttributes keep ats) true
        (some (pyOrName parentInput "block_input",
               (lookupVal ats "fusion_type").getD (AttrValue.str "add"),
               r.2))
        r.1
    else
      LayerNode.mk name cls ps (getLayerAttributes keep ats) false none
        (parseChildrenPlain keep name cs)

/-- Embeds the list comprehension of the non-residual branch (lines 92-95):
each child is parsed recursively with `parent_input` set to the current
module's name. -/
def parseChildrenPlain (keep : List String) (name : String) :
    List (String × PModule) → List LayerNode
  | [] => []
  | (cn, cm) :: rest =>
      parseLayers keep cm cn (some name) :: parseChildrenPlain keep name rest

/-- Embeds the child loop of the residual branch (lines 80-89): a child named
`"adjust"` is parsed with the block's own `parent_input` and stored in the
adjust slot (a later one would overwrite an earlier one, matching the loop's
assignment), every other child is appended to the main branch and parsed with
`parent_input = name`.  Returns (main branch, adjust slot). -/
def parseChildrenResidual (keep : List String) (name : String)
    (parentInput : Option String) :
    List (String × PModule) → List LayerNode × Option LayerNode
  | [] => ([], none)
  | (cn, cm) :: rest =>
      let r := parseChildrenResidual keep name parentInput rest
      if cn = "adjust" then
        (r.1, match r.2 with
          | some a => some a
          | none => some (parseLayers keep cm cn parentInput))
      else
        (parseLayers keep cm cn (some name) :: r.1, r.2)

end

/-- A Python value handed to the parser call: a module instance or anything
else. -/
inductive PyValue where
  | module : PModule → PyValue
  | other : AttrValue → PyValue

/-- Embeds `ModelParser.__call__` (lines 11-15): reject a non-module input
with a `TypeError`, otherwise parse from the root with the default arguments
`name="root"`, `parent_input=None`. -/
def ModelParserCall (keep : List String) (v : PyValue) : Except String LayerNode :=
  match v with
  | .module m => .ok (parseLayers keep m "root" none)
  | .other _ => .error "TypeError: 解析器仅支持torch.nn.Module子类"

/-- Generic association lookup for TOML tables (dictionary indexing). -/
def assocLookup {α : Type} (xs : List (String × α)) (n : String) : Option α :=
  (xs.find? (fun p => p.1 == n)).map Prod.snd

/-- Configuration source as `ModelParser.__init__` consumes it: the file can
be absent (`open` raises), fail TOML decoding (`tomllib.load` raises), or
parse to tables of string lists, from which `config["attributes"]["keep"]`
is read. -/
inductive ConfigSource where
  | missing
  | malformed
  | parsed : List (String × List (String × List String)) → ConfigSource

/-- Embeds `ModelParser.__init__` (`model_parser.py` lines 6-9): open the
file, decode the TOML, read `config["attributes"]["keep"]`; any failure
raises before the parser instance exists.  On success the instance state is
exactly the `keep` list. -/
def ModelParserInit : ConfigSource → Except String (List String)
  | .missing => .error "FileNotFoundError"
  | .malformed => .error "tomllib.TOMLDecodeError"
  | .parsed tables =>
    match assocLookup tables "attributes" with
    | none => .error "KeyError: attributes"
    | some tbl =>
      match assocLookup tbl "keep" with
      | none => .error "KeyError: keep"
      | some keep => .ok keep

/-- A Python class as the decorator sees it: whether it is a subclass of
`nn.Module`, and its construction procedure from arguments to the built
instance. -/
structure PClass where
  isModuleSubclass : Bool
  init : List AttrValue → PModule

/-- Dictionary update for an attribute table (`setattr` on a plain field):
replace the binding in place when the name exists, append otherwise. -/
def setAttrList : List (String × AttrValue) → String → AttrValue → List (String × AttrValue)
  | [], n, v => [(n, v)]
  | (k, w) :: rest, n, v =>
    if k = n then (k, v) :: rest else (k, w) :: setAttrList rest n v

/-- Embeds `setattr(self, n, v)` for a plain (non-module, non-parameter)
value: only the attribute table changes. -/
def setattrM (m : PModule) (n : String) (v : AttrValue) : PModule :=
  .mk m.className m.params (setAttrList m.attrs n v) m.children

/-- Embeds the decorator `residual_block` (`model_parse_decorator.py` lines
4-27): reject a class that is not an `nn.Module` subclass with a `TypeError`
at decoration time; otherwise return the class with its `__init__` wrapped so
that, after the original `__init__` finishes, `self.residual = True` and
`self.fusion_type = fusion_type` are set. -/
def residual_block (fusion_type : String := "add") (cls : PClass) :
    Except String PClass :=
  if cls.isModuleSubclass then
    .ok { isModuleSubclass := cls.isModuleSubclass,
          init := fun args =>
            setattrM (setattrM (cls.init args) "residual" (AttrValue.bool true))
              "fusion_type" (AttrValue.str fusion_type) }
  else
    .error "TypeError: 残差块装饰器仅支持nn.Module子类"

mutual

/-- Collects a node together with every node nested below it, through both
`children` and `residual_connection.adjust_layer`. -/
def collectNodes : LayerNode → List LayerNode
  | .mk ln lt ps ats ir rc cs =>
    LayerNode.mk ln lt ps ats ir rc cs ::
      ((match rc with
        | some (_, _, some adj) => collectNodes adj
        | _ => []) ++ collectNodesList cs)

/-- Collects the nodes of a list of trees. -/
def collectNodesList : List LayerNode → List LayerNode
  | [] => []
  | n :: rest => collectNodes n ++ collectNodesList rest

end

/-- Reflexive-transitive submodule relation along `named_children`. -/
inductive SubModule : PModule → PModule → Prop where
  | refl (m : PModule) : SubModule m m
  | child {s c m : PModule} {cn : String} :
      (cn, c) ∈ m.children → SubModule s c → SubModule s m

/-- Unfolding equation for `parseLayers` on a destructured module. -/
theorem parseLayers_eq (keep : List String) (cls : String) (ps : List (String × List Nat))
    (ats : List (String × AttrValue)) (cs : List (String × PModule))
    (name : String) (parentInput : Option String) :
    parseLayers keep (.mk cls ps ats cs) name parentInput =
    if isResidual ats then
      LayerNode.mk name cls ps (getLayerAttributes keep ats) true
        (some (pyOrName parentInput "block_input",
               (lookupVal ats "fusion_type").getD (AttrValue.str "add"),
               (parseChildrenResidual keep name parentInput cs).2))
        ((parseChildrenResidual keep name parentInput cs).1)
    else
      LayerNode.mk name cls ps (getLayerAttributes keep ats) false none
        (parseChildrenPlain keep name cs) := by
  rw [parseLayers]

/-- Every parsed node carries the name the parent supplied. -/
theorem parseLayers_layer_name (keep : List String) (m : PModule) (n : String)
    (pi : Option String) : (parseLayers keep m n pi).layer_name = n := by
  cases m with
  | mk cls ps ats cs => rw [parseLayers_eq]; split <;> rfl

/-- Every parsed node carries the module's class name. -/
theorem parseLayers_layer_type (keep : List String) (m : PModule) (n : String)
    (pi : Option String) : (parseLayers keep m n pi).layer_type = m.className := by
  cases m with
  | mk cls ps ats cs => rw [parseLayers_eq]; split <;> rfl

/-- Every parsed node records exactly the module's own direct parameters. -/
theorem parseLayers_parameters (keep : List String) (m : PModule) (n : String)
    (pi : Option String) : (parseLayers keep m n pi).parameters = m.params := by
  cases m with
  | mk cls ps ats cs => rw [parseLayers_eq]; split <;> rfl

/-- Every parsed node records the allow-list-filtered attributes. -/
theorem parseLayers_attributes (keep : List String) (m : PModule) (n : String)
    (pi : Option String) :
    (parseLayers keep m n pi).attributes = getLayerAttributes keep m.attrs := by
  cases m with
  | mk cls ps ats cs => rw [parseLayers_eq]; split <;> rfl

/-- The residual flag of a parsed node is exactly the marker predicate of the
module. -/
theorem parseLayers_is_residual (keep : List String) (m : PModule) (n : String)
    (pi : Option String) :
    (parseLayers keep m n pi).is_residual_block = isResidual m.attrs := by
  cases m with
  | mk cls ps ats cs =>
    rw [parseLayers_eq]
    split <;> simp_all [LayerNode.is_residual_block, PModule.attrs]

/-- The `residual_connection` slot is populated exactly when the marker
predicate holds. -/
theorem parseLayers_rc_isSome (keep : List String) (m : PModule) (n : String)
    (pi : Option String) :
    (parseLayers keep m n pi).residual_connection.isSome = isResidual m.attrs := by
  cases m with
  | mk cls ps ats cs =>
    rw [parseLayers_eq]
    split <;> simp_all [LayerNode.residual_connection, PModule.attrs]

/-- Shape of `residual_connection` on a residual-marked module. -/
theorem parseLayers_rc_of_residual (keep : List String) (m : PModule) (n : String)
    (pi : Option String) (h : isResidual m.attrs = true) :
    (parseLayers keep m n pi).residual_connection =
      some (pyOrName pi "block_input",
            (lookupVal m.attrs "fusion_type").getD (AttrValue.str "add"),
            (parseChildrenResidual keep n pi m.children).2) := by
  cases m with
  | mk cls ps ats cs =>
    rw [parseLayers_eq]
    simp_all [LayerNode.residual_connection, PModule.attrs, PModule.children]

/-- A module without a truthy marker gets a null `residual_connection`. -/
theorem parseLayers_rc_of_plain (keep : List String) (m : PModule) (n : String)
    (pi : Option String) (h : isResidual m.attrs = false) :
    (parseLayers keep m n pi).residual_connection = none := by
  cases m with
  | mk cls ps ats cs =>
    rw [parseLayers_eq]
    simp_all [LayerNode.residual_connection, PModule.attrs]

/-- The plain-branch child list is the map of the recursive call with the
current module's name as parent context. -/
theorem parseChildrenPlain_eq (keep : List String) (name : String)
    (cs : List (String × PModule)) :
    parseChildrenPlain keep name cs =
      cs.map (fun c => parseLayers keep c.2 c.1 (some name)) := by
  induction cs with
  | nil => rw [parseChildrenPlain]; rfl
  | cons c rest ih =>
    obtain ⟨cn, cm⟩ := c
    rw [parseChildrenPlain, ih, List.map_cons]

/-- The main branch of the residual child loop: all children not named
`"adjust"`, in order, parsed with the current module's name as parent
context. -/
theorem parseChildrenResidual_fst (keep : List String) (name : String)
    (pi : Option String) (cs : List (String × PModule)) :
    (parseChildrenResidual keep name pi cs).1 =
      (cs.filter (fun c => ! (c.1 == "adjust"))).map
        (fun c => parseLayers keep c.2 c.1 (some name)) := by
  induction cs with
  | nil => rw [parseChildrenResidual]; rfl
  | cons c rest ih =>
    obtain ⟨cn, cm⟩ := c
    rw [parseChildrenResidual]
    by_cases h : cn = "adjust" <;> simp [h, ih]

/-- With no child named `"adjust"`, the adjust slot stays empty. -/
theorem parseChildrenResidual_snd_of_no_adjust (keep : List String) (name : String)
    (pi : Option String) (cs : List (String × PModule))
    (h : ∀ c ∈ cs, c.1 ≠ "adjust") :
    (parseChildrenResidual keep name pi cs).2 = none := by
  induction cs with
  | nil => rw [parseChildrenResidual]
  | cons c rest ih =>
    obtain ⟨cn, cm⟩ := c
    rw [parseChildrenResidual]
    have hcn : cn ≠ "adjust" := h (cn, cm) (List.mem_cons_self _ _)
    have hrest : ∀ c ∈ rest, c.1 ≠ "adjust" := fun c hc => h c (List.mem_cons_of_mem _ hc)
    simp [hcn, ih hrest]

/-- With distinct child names, the child named `"adjust"` lands in the adjust
slot, parsed with the block's own parent context. -/
theorem parseChildrenResidual_snd_of_mem (keep : List String) (name : String)
    (pi : Option String) (cs : List (String × PModule))
    (hnd : (cs.map Prod.fst).Nodup) (cm : PModule) (hmem : ("adjust", cm) ∈ cs) :
    (parseChildrenResidual keep name pi cs).2 =
      some (parseLayers keep cm "adjust" pi) := by
  induction cs with
  | nil => cases hmem
  | cons c rest ih =>
    obtain ⟨cn, c'⟩ := c
    rw [parseChildrenResidual]
    have hnd' : (rest.map Prod.fst).Nodup := (List.nodup_cons.mp hnd).2
    have hhd : cn ∉ rest.map Prod.fst := (List.nodup_cons.mp hnd).1
    rcases List.mem_cons.mp hmem with heq | hmem'
    · injection heq.symm with h1 h2
      have hrest : ∀ c ∈ rest, c.1 ≠ "adjust" := by
        intro c hc habs
        have hm : c.1 ∈ rest.map Prod.fst := List.mem_map_of_mem Prod.fst hc
        rw [habs, ← h1] at hm
        exact hhd hm
      rw [if_pos h1, parseChildrenResidual_snd_of_no_adjust keep name pi rest hrest,
        h1, h2]
    · have hcn : cn ≠ "adjust" := by
        intro habs
        have hm : ("adjust", cm).1 ∈ rest.map Prod.fst :=
          List.mem_map_of_mem Prod.fst hmem'
        rw [← habs] at hm
        exact hhd hm
      rw [if_neg hcn]
      exact ih hnd' hmem'

/-- A populated adjust slot comes from some child named `"adjust"`, parsed
with the block's own parent context. -/
theorem parseChildrenResidual_snd_some (keep : List String) (name : String)
    (pi : Option String) (cs : List (String × PModule)) (a : LayerNode)
    (h : (parseChildrenResidual keep name pi cs).2 = some a) :
    ∃ cm, ("adjust", cm) ∈ cs ∧ a = parseLayers keep cm "adjust" pi := by
  induction cs with
  | nil => rw [parseChildrenResidual] at h; cases h
  | cons c rest ih =>
    obtain ⟨cn, cm'⟩ := c
    rw [parseChildrenResidual] at h
    by_cases hcn : cn = "adjust"
    · rw [if_pos hcn] at h
      rcases hr : (parseChildrenResidual keep name pi rest).2 with _ | a'
      · rw [hr] at h
        simp only [Option.some.injEq] at h
        refine ⟨cm', by rw [← hcn]; exact List.mem_cons_self _ _, ?_⟩
        rw [← h, hcn]
      · rw [hr] at h
        simp only [Option.some.injEq] at h
        obtain ⟨cm, hmem, heq⟩ := ih (by rw [hr, h])
        exact ⟨cm, List.mem_cons_of_mem _ hmem, heq⟩
    · rw [if_neg hcn] at h
      obtain ⟨cm, hmem, heq⟩ := ih h
      exact ⟨cm, List.mem_cons_of_mem _ hmem, heq⟩

/-- Membership characterization of the attribute filter: a pair appears iff
its name is allow-listed and the instance carries that value. -/
theorem mem_getLayerAttributes (keep : List String) (ats : List (String × AttrValue))
    (a : String) (v : AttrValue) :
    (a, v) ∈ getLayerAttributes keep ats ↔ a ∈ keep ∧ lookupVal ats a = some v := by
  unfold getLayerAttributes
  rw [List.mem_filterMap]
  constructor
  · rintro ⟨x, hx, hfx⟩
    rcases Option.map_eq_some'.mp hfx with ⟨w, hw, hxw⟩
    injection hxw with h1 h2
    subst h1; subst h2
    exact ⟨hx, hw⟩
  · rintro ⟨ha, hv⟩
    exact ⟨a, ha, by rw [hv]; rfl⟩

/-- Key order of the attribute filter: exactly the allow-list, restricted to
names present on the instance, in allow-list order. -/
theorem getLayerAttributes_keys (keep : List String) (ats : List (String × AttrValue)) :
    (getLayerAttributes keep ats).map Prod.fst =
      keep.filter (fun a => (lookupVal ats a).isSome) := by
  induction keep with
  | nil => rfl
  | cons a rest ih =>
    unfold getLayerAttributes at ih ⊢
    rw [List.filterMap_cons]
    rcases h : lookupVal ats a with _ | v
    · simp [h, ih]
    · simp [h, ih]

/-- Setting an attribute makes it readable with the written value. -/
theorem lookupVal_setAttrList_self (ats : List (String × AttrValue)) (n : String)
    (v : AttrValue) : lookupVal (setAttrList ats n v) n = some v := by
  induction ats with
  | nil => simp [setAttrList, lookupVal]
  | cons p rest ih =>
    obtain ⟨k, w⟩ := p
    by_cases h : k = n
    · rw [setAttrList, if_pos h]
      simp [lookupVal, h]
    · rw [setAttrList, if_neg h]
      simp only [lookupVal, List.find?] at ih ⊢
      have : (k == n) = false := by simp [h]
      rw [this]
      exact ih

/-- Setting an attribute leaves every other attribute unchanged. -/
theorem lookupVal_setAttrList_other (ats : List (String × AttrValue)) (n a : String)
    (v : AttrValue) (h : a ≠ n) :
    lookupVal (setAttrList ats n v) a = lookupVal ats a := by
  have hna : (n == a) = false := by
    simp only [beq_eq_false_iff_ne, ne_eq]
    intro e
    exact h e.symm
  induction ats with
  | nil =>
    simp only [setAttrList, lookupVal, List.find?]
    rw [hna]
  | cons p rest ih =>
    obtain ⟨k, w⟩ := p
    by_cases hk : k = n
    · rw [setAttrList, if_pos hk]
      simp only [lookupVal, List.find?]
      rw [hk, hna]
    · rw [setAttrList, if_neg hk]
      simp only [lookupVal, List.find?] at ih ⊢
      cases hka : (k == a)
      · exact ih
      · rfl

/-- Unfolding equation for `collectNodes`. -/
theorem collectNodes_eq (ln lt : String) (ps : List (String × List Nat))
    (ats : List (String × AttrValue)) (ir : Bool)
    (rc : Option (String × AttrValue × Option LayerNode)) (cs : List LayerNode) :
    collectNodes (.mk ln lt ps ats ir rc cs) =
      LayerNode.mk ln lt ps ats ir rc cs ::
        ((match rc with
          | some (_, _, some adj) => collectNodes adj
          | _ => []) ++ collectNodesList cs) := by
  rcases rc with _ | ⟨s, f, _ | adj⟩ <;> rw [collectNodes] <;> simp

/-- Membership in the collected nodes of a list of trees. -/
theorem mem_collectNodesList (nd : LayerNode) (l : List LayerNode) :
    nd ∈ collectNodesList l ↔ ∃ x ∈ l, nd ∈ collectNodes x := by
  induction l with
  | nil => rw [collectNodesList]; simp
  | cons x rest ih => rw [collectNodesList]; simp [ih]

/-- A child module is structurally smaller than the children list. -/
theorem sizeOf_child_lt (cn : String) (cm : PModule) (cs : List (String × PModule))
    (h : (cn, cm) ∈ cs) : sizeOf cm < sizeOf cs := by
  have h1 : sizeOf (cn, cm) < sizeOf cs := List.sizeOf_lt_of_mem h
  have h2 : sizeOf cm < sizeOf (cn, cm) := by
    simp only [Prod.mk.sizeOf_spec]
    omega
  omega

/-- Bounded form of the node-origin lemma: every node collected from a parse
is itself the parse of a submodule of the input. -/
theorem nodes_are_submodules_bounded (keep : List String) :
    ∀ (k : Nat) (m : PModule), sizeOf m ≤ k → ∀ (n : String) (pi : Option String)
      (nd : LayerNode), nd ∈ collectNodes (parseLayers keep m n pi) →
      ∃ m' n' pi', SubModule m' m ∧ nd = parseLayers keep m' n' pi' := by
  intro k
  induction k with
  | zero =>
    rintro ⟨cls, ps, ats, cs⟩ hm
    simp only [PModule.mk.sizeOf_spec] at hm
    omega
  | succ k ih =>
    rintro ⟨cls, ps, ats, cs⟩ hsz n pi nd hnd
    have hcs : sizeOf cs ≤ k := by
      simp only [PModule.mk.sizeOf_spec] at hsz
      omega
    rw [parseLayers_eq] at hnd
    by_cases hres : isResidual ats
    · rw [if_pos hres, collectNodes_eq] at hnd
      rcases List.mem_cons.mp hnd with hip | htail
      · refine ⟨.mk cls ps ats cs, n, pi, SubModule.refl _, ?_⟩
        rw [parseLayers_eq, if_pos hres, hip]
      · rcases List.mem_append.mp htail with hadj | hmain
        · rcases hr : (parseChildrenResidual keep n pi cs).2 with _ | a
          · rw [hr] at hadj
            cases hadj
          · rw [hr] at hadj
            simp only at hadj
            obtain ⟨cm, hmem, ha⟩ := parseChildrenResidual_snd_some keep n pi cs a hr
            rw [ha] at hadj
            have hsm : sizeOf cm ≤ k :=
              le_trans (Nat.le_of_lt_succ (Nat.lt_succ_of_lt
                (sizeOf_child_lt _ _ _ hmem))) hcs
            obtain ⟨m', n', pi', hsub, heq⟩ := ih cm hsm "adjust" pi nd hadj
            exact ⟨m', n', pi', SubModule.child hmem hsub, heq⟩
        · rw [parseChildrenResidual_fst] at hmain
          rw [mem_collectNodesList] at hmain
          obtain ⟨x, hx, hndx⟩ := hmain
          rw [List.mem_map] at hx
          obtain ⟨c, hcf, hxeq⟩ := hx
          have hcmem : c ∈ cs := (List.mem_filter.mp hcf).1
          have hcmem' : (c.1, c.2) ∈ cs := by rw [Prod.mk.eta]; exact hcmem
          have hsm : sizeOf c.2 ≤ k :=
            le_trans (Nat.le_of_lt_succ (Nat.lt_succ_of_lt
              (sizeOf_child_lt c.1 c.2 cs hcmem'))) hcs
          rw [← hxeq] at hndx
          obtain ⟨m', n', pi', hsub, heq⟩ := ih c.2 hsm c.1 (some n) nd hndx
          exact ⟨m', n', pi', SubModule.child hcmem' hsub, heq⟩
    · rw [if_neg hres, collectNodes_eq] at hnd
      rcases List.mem_cons.mp hnd with hip | htail
      · refine ⟨.mk cls ps ats cs, n, pi, SubModule.refl _, ?_⟩
        rw [parseLayers_eq, if_neg hres, hip]
      · rcases List.mem_append.mp htail with hadj | hmain
        · cases hadj
        · rw [parseChildrenPlain_eq] at hmain
          rw [mem_collectNodesList] at hmain
          obtain ⟨x, hx, hndx⟩ := hmain
          rw [List.mem_map] at hx
          obtain ⟨c, hcmem, hxeq⟩ := hx
          have hcmem' : (c.1, c.2) ∈ cs := by rw [Prod.mk.eta]; exact hcmem
          have hsm : sizeOf c.2 ≤ k :=
            le_trans (Nat.le_of_lt_succ (Nat.lt_succ_of_lt
              (sizeOf_child_lt c.1 c.2 cs hcmem'))) hcs
          rw [← hxeq] at hndx
          obtain ⟨m', n', pi', hsub, heq⟩ := ih c.2 hsm c.1 (some n) nd hndx
          exact ⟨m', n', pi', SubModule.child hcmem' hsub, heq⟩

/-- Every node collected from a parse is the parse of a submodule of the
input, under some name and parent context. -/
theorem nodes_are_submodules (keep : List String) (m : PModule) (n : String)
    (pi : Option String) (nd : LayerNode)
    (hnd : nd ∈ collectNodes (parseLayers keep m n pi)) :
    ∃ m' n' pi', SubModule m' m ∧ nd = parseLayers keep m' n' pi' :=
  nodes_are_submodules_bounded keep (sizeOf m) m le_rfl n pi nd hnd

/-- Children of a parsed residual-marked module: the main branch, in declared
order, each parsed with the module's own name as parent context. -/
theorem parseLayers_children_residual (keep : List String) (m : PModule) (n : String)
    (pi : Option String) (h : isResidual m.attrs = true) :
    (parseLayers keep m n pi).children =
      (m.children.filter (fun c => ! (c.1 == "adjust"))).map
        (fun c => parseLayers keep c.2 c.1 (some n)) := by
  cases m with
  | mk cls ps ats cs =>
    simp only [PModule.attrs] at h
    rw [parseLayers_eq, if_pos h]
    simp only [LayerNode.children, PModule.children]
    exact parseChildrenResidual_fst keep n pi cs

/-- Children of a parsed plain module: every declared child, in order, parsed
with the module's own name as parent context. -/
theorem parseLayers_children_plain (keep : List String) (m : PModule) (n : String)
    (pi : Option String) (h : isResidual m.attrs = false) :
    (parseLayers keep m n pi).children =
      m.children.map (fun c => parseLayers keep c.2 c.1 (some n)) := by
  cases m with
  | mk cls ps ats cs =>
    simp only [PModule.attrs] at h
    rw [parseLayers_eq, if_neg (by rw [h]; exact Bool.false_ne_true)]
    simp only [LayerNode.children, PModule.children]
    exact parseChildrenPlain_eq keep n cs

/-- A tree's root is among its collected nodes. -/
theorem self_mem_collectNodes (nd : LayerNode) : nd ∈ collectNodes nd := by
  cases nd with
  | mk ln lt ps ats ir rc cs =>
    rw [collectNodes_eq]
    exact List.mem_cons_self _ _

/-- Sample leaf module in the shape of `torch.nn.Linear(10, 10)`. -/
def linLeaf : PModule :=
  .mk "Linear" [("weight", [10, 10]), ("bias", [10])]
    [("in_features", .int 10), ("out_features", .int 10)] []

/-- Sample of the test suite's `ResidualBlock(has_adjust=True)`. -/
def resBlockAdj : PModule :=
  .mk "ResidualBlock" []
    [("residual", .bool true), ("fusion_type", .str "add")]
    [("main1", linLeaf), ("main2", linLeaf), ("adjust", linLeaf)]

/-- Sample of the test suite's `ResidualBlock(has_adjust=False)`. -/
def resBlockPlain : PModule :=
  .mk "ResidualBlock" []
    [("residual", .bool true), ("fusion_type", .str "add")]
    [("main1", linLeaf), ("main2", linLeaf)]

/-- Residual-marked module with no children and no fusion tag. -/
def resBlockEmpty : PModule :=
  .mk "EmptyRes" [] [("residual", .bool true)] []

/-- Sample of the test suite's `SimpleLayer(10, 20)`. -/
def simpleLayer : PModule :=
  .mk "SimpleLayer" []
    [("in_features", .int 10), ("out_features", .int 20)]
    [("fc", linLeaf)]

/-- A class outside the `nn.Module` hierarchy. -/
def notAModuleClass : PClass :=
  { isModuleSubclass := false, init := fun _ => linLeaf }

/-- A well-formed `nn.Module` subclass whose constructor builds
`simpleLayer`. -/
def sampleClass : PClass :=
  { isModuleSubclass := true, init := fun _ => simpleLayer }

/-- C1: for every module whose residual marker is present and truthy, the
parser parses each main-branch child recursively with parent context equal to
the module's own parent-supplied name, parses the child named `"adjust"` (if
present) with the same parent context the module itself received (the
`parent_input` argument, passed through unchanged), and sets
`residual_connection.input_source` to the parent-supplied context, defaulting
to the sentinel `"block_input"` when none was supplied. -/
theorem claim_C1 (keep : List String) (m : PModule) (n : String) (pi : Option String)
    (h : isResidual m.attrs = true) :
    (parseLayers keep m n pi).children =
      (m.children.filter (fun c => ! (c.1 == "adjust"))).map
        (fun c => parseLayers keep c.2 c.1 (some n)) ∧
    ∃ rc, (parseLayers keep m n pi).residual_connection = some rc ∧
      RCinput_source rc = pyOrName pi "block_input" ∧
      (pi = none → RCinput_source rc = "block_input") ∧
      (∀ s, pi = some s → s ≠ "" → RCinput_source rc = s) ∧
      ∀ cm, (m.children.map Prod.fst).Nodup → ("adjust", cm) ∈ m.children →
        RCadjust_layer rc = some (parseLayers keep cm "adjust" pi) := by
  refine ⟨parseLayers_children_residual keep m n pi h,
    _, parseLayers_rc_of_residual keep m n pi h, rfl, ?_, ?_, ?_⟩
  · intro hpi
    rw [hpi]
    rfl
  · intro s hpi hs
    rw [hpi]
    simp [RCinput_source, pyOrName, hs]
  · intro cm hnd hmem
    simp only [RCadjust_layer]
    exact parseChildrenResidual_snd_of_mem keep n pi m.children hnd cm hmem

/-- Witness for C1 on a concrete residual block with two main-branch children
and an adjust child, parsed under a nonempty parent context. -/
theorem claim_C1_witness :
    (parseLayers ["in_features"] resBlockAdj "rb" (some "parent")).children =
      [parseLayers ["in_features"] linLeaf "main1" (some "rb"),
       parseLayers ["in_features"] linLeaf "main2" (some "rb")] ∧
    (parseLayers ["in_features"] resBlockAdj "rb" (some "parent")).residual_connection.map
      RCinput_source = some "parent" ∧
    (parseLayers ["in_features"] resBlockAdj "rb" (some "parent")).residual_connection.map
      RCadjust_layer =
      some (some (parseLayers ["in_features"] linLeaf "adjust" (some "parent"))) := by
  obtain ⟨hch, rc, hrc, hin, hnone, hsome, hadj⟩ :=
    claim_C1 ["in_features"] resBlockAdj "rb" (some "parent") rfl
  refine ⟨?_, ?_, ?_⟩
  · rw [hch]
    rfl
  · rw [hrc, Option.map_some', hsome "parent" rfl (by decide)]
  · rw [hrc, Option.map_some', hadj linLeaf (by decide)
      (by simp [resBlockAdj, PModule.children])]

/-- C2: a residual-marked module's direct children are partitioned: the child
named `"adjust"` (unique child names, so at most one) goes to
`residual_connection.adjust_layer` and is excluded from `children`; all other
children become `children` in declared order; with no adjust child the adjust
slot is null and `children` is unaffected; zero children still give
`is_residual_block = true` with empty `children`. -/
theorem claim_C2 (keep : List String) (m : PModule) (n : String) (pi : Option String)
    (h : isResidual m.attrs = true) :
    (parseLayers keep m n pi).is_residual_block = true ∧
    (parseLayers keep m n pi).children =
      (m.children.filter (fun c => ! (c.1 == "adjust"))).map
        (fun c => parseLayers keep c.2 c.1 (some n)) ∧
    (∀ cm, (m.children.map Prod.fst).Nodup → ("adjust", cm) ∈ m.children →
      (parseLayers keep m n pi).residual_connection.map RCadjust_layer =
        some (some (parseLayers keep cm "adjust" pi))) ∧
    ((∀ c ∈ m.children, c.1 ≠ "adjust") →
      (parseLayers keep m n pi).residual_connection.map RCadjust_layer = some none ∧
      (parseLayers keep m n pi).children =
        m.children.map (fun c => parseLayers keep c.2 c.1 (some n))) ∧
    (m.children = [] → (parseLayers keep m n pi).children = []) := by
  have hrc := parseLayers_rc_of_residual keep m n pi h
  have hch := parseLayers_children_residual keep m n pi h
  refine ⟨?_, hch, ?_, ?_, ?_⟩
  · rw [parseLayers_is_residual, h]
  · intro cm hnd hmem
    rw [hrc, Option.map_some']
    simp only [RCadjust_layer]
    rw [parseChildrenResidual_snd_of_mem keep n pi m.children hnd cm hmem]
  · intro hno
    constructor
    · rw [hrc, Option.map_some']
      simp only [RCadjust_layer]
      rw [parseChildrenResidual_snd_of_no_adjust keep n pi m.children hno]
    · rw [hch]
      congr 1
      rw [List.filter_eq_self]
      intro c hc
      simp only [Bool.not_eq_eq_eq_not, Bool.not_true, beq_eq_false_iff_ne, ne_eq]
      exact hno c hc
  · intro hemp
    rw [hch, hemp]
    rfl

/-- Witness for C2 on the adjust-free residual block and on the childless
residual module. -/
theorem claim_C2_witness :
    (parseLayers [] resBlockPlain "residual_block" none).is_residual_block = true ∧
    (parseLayers [] resBlockPlain "residual_block" none).children =
      [parseLayers [] linLeaf "main1" (some "residual_block"),
       parseLayers [] linLeaf "main2" (some "residual_block")] ∧
    (parseLayers [] resBlockPlain "residual_block" none).residual_connection.map
      RCadjust_layer = some none ∧
    (parseLayers [] resBlockEmpty "blk" none).is_residual_block = true ∧
    (parseLayers [] resBlockEmpty "blk" none).children = [] := by
  obtain ⟨hflag, hch, hadj, hno, hemp⟩ :=
    claim_C2 [] resBlockPlain "residual_block" none rfl
  obtain ⟨hflag2, hch2, hadj2, hno2, hemp2⟩ :=
    claim_C2 [] resBlockEmpty "blk" none rfl
  obtain ⟨hslot, hfull⟩ := hno (by decide)
  refine ⟨hflag, ?_, hslot, hflag2, hemp2 rfl⟩
  rw [hfull]
  rfl

/-- C10: the `input_source` default is triggered by any falsy parent context,
not only an absent one: a residual-marked module parsed with the empty string
as parent context reports the sentinel `"block_input"`, not the empty
string. -/
theorem claim_C10 (keep : List String) (m : PModule) (n : String)
    (h : isResidual m.attrs = true) :
    (parseLayers keep m n (some "")).residual_connection.map RCinput_source =
      some "block_input" := by
  rw [parseLayers_rc_of_residual keep m n (some "") h, Option.map_some']
  rfl

/-- Witness for C10 on the childless residual module. -/
theorem claim_C10_witness :
    (parseLayers [] resBlockEmpty "blk" (some "")).residual_connection.map
      RCinput_source = some "block_input" :=
  claim_C10 [] resBlockEmpty "blk" rfl

/-- C3: every node anywhere in a parse result (including below
`residual_connection.adjust_layer`) is the parse of some submodule, its
residual flag equals that submodule's marker predicate, and it satisfies
exactly one of (flag false, connection null) or (flag true, connection a
populated value). -/
theorem claim_C3 (keep : List String) (m : PModule) (n : String) (pi : Option String) :
    ∀ nd ∈ collectNodes (parseLayers keep m n pi),
      ∃ m' n' pi', SubModule m' m ∧ nd = parseLayers keep m' n' pi' ∧
        nd.is_residual_block = isResidual m'.attrs ∧
        ((nd.is_residual_block = false ∧ nd.residual_connection = none) ∨
         (nd.is_residual_block = true ∧
          ∃ rc, nd.residual_connection = some rc)) := by
  intro nd hnd
  obtain ⟨m', n', pi', hsub, heq⟩ := nodes_are_submodules keep m n pi nd hnd
  refine ⟨m', n', pi', hsub, heq, ?_, ?_⟩
  · rw [heq, parseLayers_is_residual]
  · by_cases hr : isResidual m'.attrs = true
    · right
      refine ⟨by rw [heq, parseLayers_is_residual, hr], _,
        by rw [heq]; exact parseLayers_rc_of_residual keep m' n' pi' hr⟩
    · left
      have hr' : isResidual m'.attrs = false := by
        cases hb : isResidual m'.attrs
        · rfl
        · exact absurd hb hr
      exact ⟨by rw [heq, parseLayers_is_residual, hr'],
        by rw [heq]; exact parseLayers_rc_of_plain keep m' n' pi' hr'⟩

/-- Witness for C3 at the root node of a concrete parse. -/
theorem claim_C3_witness :
    ∃ m' n' pi', SubModule m' simpleLayer ∧
      parseLayers ["in_features"] simpleLayer "root" none =
        parseLayers ["in_features"] m' n' pi' ∧
      (parseLayers ["in_features"] simpleLayer "root" none).is_residual_block =
        isResidual m'.attrs ∧
      (((parseLayers ["in_features"] simpleLayer "root" none).is_residual_block = false ∧
        (parseLayers ["in_features"] simpleLayer "root" none).residual_connection = none) ∨
       ((parseLayers ["in_features"] simpleLayer "root" none).is_residual_block = true ∧
        ∃ rc, (parseLayers ["in_features"] simpleLayer "root" none).residual_connection =
          some rc)) :=
  claim_C3 ["in_features"] simpleLayer "root" none
    (parseLayers ["in_features"] simpleLayer "root" none)
    (self_mem_collectNodes _)

/-- C4: the attribute mapping of a node holds exactly the allow-listed names
present on the instance, each with its current value, in allow-list order;
an allow-listed name absent from the instance yields no key at all. -/
theorem claim_C4 (keep : List String) (m : PModule) (n : String) (pi : Option String) :
    (parseLayers keep m n pi).attributes = getLayerAttributes keep m.attrs ∧
    (∀ a v, (a, v) ∈ getLayerAttributes keep m.attrs ↔
      a ∈ keep ∧ getattrOpt m a = some v) ∧
    (getLayerAttributes keep m.attrs).map Prod.fst =
      keep.filter (fun a => hasattrB m a) ∧
    (∀ a, a ∈ keep → hasattrB m a = false →
      ∀ v, (a, v) ∉ getLayerAttributes keep m.attrs) := by
  refine ⟨parseLayers_attributes keep m n pi, ?_, ?_, ?_⟩
  · intro a v
    exact mem_getLayerAttributes keep m.attrs a v
  · rw [getLayerAttributes_keys]
    rfl
  · intro a _ habs v hmem
    obtain ⟨_, hv⟩ := (mem_getLayerAttributes keep m.attrs a v).mp hmem
    rw [hasattrB, getattrOpt] at habs
    rw [hv] at habs
    cases habs

/-- Witness for C4: two-attribute layer with an allow-list that also names a
missing attribute. -/
theorem claim_C4_witness :
    (parseLayers ["in_features", "missing", "out_features"] simpleLayer "root"
      none).attributes =
      [("in_features", AttrValue.int 10), ("out_features", AttrValue.int 20)] ∧
    (("in_features", AttrValue.int 10) ∈
      getLayerAttributes ["in_features", "missing", "out_features"] simpleLayer.attrs) ∧
    (getLayerAttributes ["in_features", "missing", "out_features"]
      simpleLayer.attrs).map Prod.fst = ["in_features", "out_features"] ∧
    ∀ v, ("missing", v) ∉
      getLayerAttributes ["in_features", "missing", "out_features"] simpleLayer.attrs := by
  obtain ⟨hat, hmem, hkeys, habsent⟩ :=
    claim_C4 ["in_features", "missing", "out_features"] simpleLayer "root" none
  refine ⟨?_, ?_, ?_, ?_⟩
  · rw [hat]
    rfl
  · exact (hmem "in_features" (AttrValue.int 10)).mpr ⟨by decide, rfl⟩
  · rw [hkeys]
    rfl
  · exact habsent "missing" (by decide) rfl

/-- C5: the parse call on a module yields a root node named `"root"`; a
non-residual module's children are the recursively parsed declared children,
in order, with matching names. -/
theorem claim_C5 (keep : List String) (m : PModule) (n : String) (pi : Option String)
    (h : isResidual m.attrs = false) :
    (∃ nd, ModelParserCall keep (.module m) = .ok nd ∧ nd.layer_name = "root") ∧
    (parseLayers keep m n pi).children =
      m.children.map (fun c => parseLayers keep c.2 c.1 (some n)) ∧
    (parseLayers keep m n pi).children.length = m.children.length ∧
    (parseLayers keep m n pi).children.map LayerNode.layer_name =
      m.children.map Prod.fst := by
  have hch := parseLayers_children_plain keep m n pi h
  refine ⟨⟨_, rfl, parseLayers_layer_name keep m "root" none⟩, hch, ?_, ?_⟩
  · rw [hch, List.length_map]
  · rw [hch, List.map_map]
    simp [Function.comp, parseLayers_layer_name]

/-- Witness for C5 on a concrete plain layer with one child. -/
theorem claim_C5_witness :
    (∃ nd, ModelParserCall [] (.module simpleLayer) = .ok nd ∧
      nd.layer_name = "root") ∧
    (parseLayers [] simpleLayer "test_layer" none).children =
      [parseLayers [] linLeaf "fc" (some "test_layer")] ∧
    (parseLayers [] simpleLayer "test_layer" none).children.length = 1 ∧
    (parseLayers [] simpleLayer "test_layer" none).children.map
      LayerNode.layer_name = ["fc"] := by
  obtain ⟨hroot, hch, hlen, hnames⟩ := claim_C5 [] simpleLayer "test_layer" none rfl
  refine ⟨hroot, ?_, ?_, ?_⟩
  · rw [hch]
    rfl
  · rw [hlen]
    rfl
  · rw [hnames]
    rfl

/-- C9: every node records exactly its own module's direct parameters with
their shapes; each node anywhere in the tree is the parse of the
corresponding submodule and carries that submodule's direct parameters, so a
descendant's parameters never appear on an ancestor's node. -/
theorem claim_C9 (keep : List String) (m : PModule) (n : String) (pi : Option String) :
    (parseLayers keep m n pi).parameters = m.params ∧
    ∀ nd ∈ collectNodes (parseLayers keep m n pi),
      ∃ m' n' pi', SubModule m' m ∧ nd = parseLayers keep m' n' pi' ∧
        nd.parameters = m'.params := by
  refine ⟨parseLayers_parameters keep m n pi, ?_⟩
  intro nd hnd
  obtain ⟨m', n', pi', hsub, heq⟩ := nodes_are_submodules keep m n pi nd hnd
  exact ⟨m', n', pi', hsub, heq, by rw [heq, parseLayers_parameters]⟩

/-- Witness for C9: the root of a concrete parse records the layer's own
parameter shapes. -/
theorem claim_C9_witness :
    (parseLayers [] linLeaf "fc" none).parameters =
      [("weight", [10, 10]), ("bias", [10])] ∧
    ∃ m' n' pi', SubModule m' linLeaf ∧
      parseLayers [] linLeaf "fc" none = parseLayers [] m' n' pi' ∧
      (parseLayers [] linLeaf "fc" none).parameters = m'.params := by
  obtain ⟨hp, hall⟩ := claim_C9 [] linLeaf "fc" none
  exact ⟨hp, hall (parseLayers [] linLeaf "fc" none) (self_mem_collectNodes _)⟩

/-- C6: decorating an `nn.Module` subclass wraps its construction so every
instantiation first runs the original constructor in full, then sets exactly
the two fields `residual = True` and `fusion_type = L`; every other
attribute, the class name, the parameters and the children are untouched, and
the class-level module-subclass status is preserved. -/
theorem claim_C6 (L : String) (cls : PClass) (h : cls.isModuleSubclass = true) :
    ∃ cls', residual_block L cls = .ok cls' ∧
      cls'.isModuleSubclass = cls.isModuleSubclass ∧
      ∀ args,
        cls'.init args =
          setattrM (setattrM (cls.init args) "residual" (AttrValue.bool true))
            "fusion_type" (AttrValue.str L) ∧
        getattrOpt (cls'.init args) "residual" = some (AttrValue.bool true) ∧
        getattrOpt (cls'.init args) "fusion_type" = some (AttrValue.str L) ∧
        (∀ a, a ≠ "residual" → a ≠ "fusion_type" →
          getattrOpt (cls'.init args) a = getattrOpt (cls.init args) a) ∧
        (cls'.init args).className = (cls.init args).className ∧
        (cls'.init args).params = (cls.init args).params ∧
        (cls'.init args).children = (cls.init args).children := by
  have hres : residual_block L cls =
      .ok { isModuleSubclass := cls.isModuleSubclass,
            init := fun args =>
              setattrM (setattrM (cls.init args) "residual" (AttrValue.bool true))
                "fusion_type" (AttrValue.str L) } := by
    unfold residual_block
    rw [h]
    rfl
  refine ⟨_, hres, rfl, fun args => ⟨rfl, ?_, ?_, ?_, rfl, rfl, rfl⟩⟩
  · show lookupVal (setAttrList
      (setAttrList (cls.init args).attrs "residual" (AttrValue.bool true))
      "fusion_type" (AttrValue.str L)) "residual" = some (AttrValue.bool true)
    rw [lookupVal_setAttrList_other _ _ _ _ (by decide)]
    exact lookupVal_setAttrList_self _ _ _
  · exact lookupVal_setAttrList_self _ _ _
  · intro a ha1 ha2
    show lookupVal (setAttrList
      (setAttrList (cls.init args).attrs "residual" (AttrValue.bool true))
      "fusion_type" (AttrValue.str L)) a = _
    rw [lookupVal_setAttrList_other _ _ _ _ ha2,
      lookupVal_setAttrList_other _ _ _ _ ha1]
    rfl

/-- Witness for C6: decorating the sample class with fusion label
`"concat"`. -/
theorem claim_C6_witness :
    ∃ cls', residual_block "concat" sampleClass = .ok cls' ∧
      cls'.isModuleSubclass = true ∧
      getattrOpt (cls'.init []) "residual" = some (AttrValue.bool true) ∧
      getattrOpt (cls'.init []) "fusion_type" = some (AttrValue.str "concat") ∧
      getattrOpt (cls'.init []) "in_features" = some (AttrValue.int 10) := by
  obtain ⟨cls', hok, hsub, hall⟩ := claim_C6 "concat" sampleClass rfl
  obtain ⟨hinit, hresid, hfus, hother, _, _, _⟩ := hall []
  refine ⟨cls', hok, hsub, hresid, hfus, ?_⟩
  rw [hother "in_features" (by decide) (by decide)]
  rfl

/-- C7: decorating a class outside the `nn.Module` hierarchy raises a
`TypeError` at decoration time, and calling the parser on a non-module input
raises a `TypeError` immediately; neither input is silently coerced. -/
theorem claim_C7 :
    (∀ (L : String) (cls : PClass), cls.isModuleSubclass = false →
      residual_block L cls = .error "TypeError: 残差块装饰器仅支持nn.Module子类") ∧
    (∀ (keep : List String) (a : AttrValue),
      ModelParserCall keep (.other a) =
        .error "TypeError: 解析器仅支持torch.nn.Module子类") := by
  constructor
  · intro L cls h
    unfold residual_block
    rw [h]
    rfl
  · intro keep a
    rfl

/-- Witness for C7 on a concrete non-module class and a concrete non-module
value. -/
theorem claim_C7_witness :
    residual_block "add" notAModuleClass =
      .error "TypeError: 残差块装饰器仅支持nn.Module子类" ∧
    ModelParserCall [] (.other (AttrValue.int 3)) =
      .error "TypeError: 解析器仅支持torch.nn.Module子类" :=
  ⟨claim_C7.1 "add" notAModuleClass rfl, claim_C7.2 [] (AttrValue.int 3)⟩

/-- C8: parser construction fails with a configuration error exactly when the
configuration source is missing, malformed, or lacks the
`attributes`/`keep` allow-list entry; on success the returned state is
exactly the `keep` list from the file. -/
theorem claim_C8 :
    ModelParserInit .missing = .error "FileNotFoundError" ∧
    ModelParserInit .malformed = .error "tomllib.TOMLDecodeError" ∧
    (∀ tables, assocLookup tables "attributes" = none →
      ModelParserInit (.parsed tables) = .error "KeyError: attributes") ∧
    (∀ tables tbl, assocLookup tables "attributes" = some tbl →
      assocLookup tbl "keep" = none →
      ModelParserInit (.parsed tables) = .error "KeyError: keep") ∧
    (∀ cfg keep, ModelParserInit cfg = .ok keep ↔
      ∃ tables tbl, cfg = .parsed tables ∧
        assocLookup tables "attributes" = some tbl ∧
        assocLookup tbl "keep" = some keep) := by
  refine ⟨rfl, rfl, ?_, ?_, ?_⟩
  · intro tables h
    simp [ModelParserInit, h]
  · intro tables tbl h1 h2
    simp [ModelParserInit, h1, h2]
  · intro cfg keep
    constructor
    · intro h
      cases cfg with
      | missing => cases h
      | malformed => cases h
      | parsed tables =>
        simp only [ModelParserInit] at h
        split at h
        · cases h
        · rename_i tbl h1
          split at h
          · cases h
          · rename_i kp h2
            injection h with h3
            exact ⟨tables, tbl, rfl, h1, by rw [h2, h3]⟩
    · rintro ⟨tables, tbl, hcfg, h1, h2⟩
      rw [hcfg]
      simp [ModelParserInit, h1, h2]

/-- Witness for C8: a well-formed configuration succeeds with its `keep`
list, and the degenerate sources fail. -/
theorem claim_C8_witness :
    ModelParserInit .missing = .error "FileNotFoundError" ∧
    ModelParserInit (.parsed [("other", [])]) = .error "KeyError: attributes" ∧
    ModelParserInit (.parsed [("attributes", [("keep", ["in_features"])])]) =
      .ok ["in_features"] := by
  refine ⟨claim_C8.1, claim_C8.2.2.1 [("other", [])] rfl, ?_⟩
  exact (claim_C8.2.2.2.2 (.parsed [("attributes", [("keep", ["in_features"])])])
    ["in_features"]).mpr ⟨[("attributes", [("keep", ["in_features"])])],
      [("keep", ["in_features"])], rfl, rfl, rfl⟩
